import Mathlib

/-!
Shallow embedding of the jira-summarizer pipeline (grouping, comparator,
rendering, short-description extraction) together with proofs about the
properties its specification states.

JavaScript strings are modelled as Lean `String` (a list of characters);
the JS string methods used by the program (`replace` with the concrete
anchored or global patterns appearing in the source, `split`, `trim`,
`toLowerCase`, `localeCompare`, `Array.prototype.join`, template literals)
are modelled by explicit functions on `List Char` below.
`String.prototype.localeCompare` is modelled as code-point lexicographic
comparison. JS objects used as string-keyed dictionaries are modelled as
association lists, and a property read that can miss returns an `Option`.
-/

namespace JiraSummarizer

/-- Code-point lexicographic strict order on character lists.  Models the
order that JS string comparison / `localeCompare` (as embedded here) uses. -/
def listLt : List Char → List Char → Bool
  | _, [] => false
  | [], _ :: _ => true
  | a :: as, b :: bs => if a < b then true else if b < a then false else listLt as bs

/-- Model of `a.localeCompare(b)`: negative, zero, or positive according to
code-point lexicographic comparison. -/
def localeCompare (a b : String) : Int :=
  if listLt a.data b.data then -1 else if listLt b.data a.data then 1 else 0

/-- Model of `Array.prototype.join(sep)`. -/
def jsJoin (sep : String) : List String → String
  | [] => ""
  | [x] => x
  | x :: y :: xs => x ++ sep ++ jsJoin sep (y :: xs)

/-- Model of `String.prototype.trim()`: drop leading and trailing
whitespace characters. -/
def jsTrim (s : String) : String :=
  ⟨(((s.data.dropWhile Char.isWhitespace).reverse.dropWhile Char.isWhitespace).reverse)⟩

/-- Model of `.replace(/\r\n/g, "\n")`: replace every (non-overlapping,
left-to-right) CR-LF pair by a single LF. -/
def normNewlines : List Char → List Char
  | [] => []
  | '\r' :: '\n' :: rest => '\n' :: normNewlines rest
  | c :: rest => c :: normNewlines rest

/-- Model of `.split("\n")[0]`: the text before the first newline. -/
def firstLine (l : List Char) : List Char := l.takeWhile (fun c => c != '\n')

/-- Model of `.replace(/^_/, "")`: strip one leading underscore. -/
def stripLeadUnderscore : List Char → List Char
  | '_' :: rest => rest
  | l => l

/-- Model of `.replace(/_$/, "")`: strip one trailing underscore. -/
def stripTrailUnderscore (l : List Char) : List Char :=
  if l.getLast? = some '_' then l.dropLast else l

/-- Case-insensitive (ASCII, as the /i flag behaves on the literal
patterns used in the source) anchored match: does `l` start with `pat`,
comparing characters lower-cased? -/
def matchesCI : List Char → List Char → Bool
  | [], _ => true
  | _ :: _, [] => false
  | p :: ps, c :: cs => (p.toLower == c.toLower) && matchesCI ps cs

/-- The character class `[A-Za-z]`. -/
def isAsciiAlpha (c : Char) : Bool :=
  ('A' ≤ c && c ≤ 'Z') || ('a' ≤ c && c ≤ 'z')

/-- The apostrophe character (written by code point to keep the source
free of quoting ambiguity). -/
def apos : Char := Char.ofNat 39

/-- The pattern `Summary: ` of the regex `/^Summary: /i`. -/
def summaryTag : List Char := "Summary: ".data

/-- The tail of the regex `/^[A-Za-z]+'s summary: /i` after the leading
letter run: apostrophe, `s`, then ` summary: `. -/
def ownerTail : List Char := apos :: 's' :: " summary: ".data

/-- Model of `.replace(/^Summary: /i, "")`. -/
def stripSummaryTag (l : List Char) : List Char :=
  if matchesCI summaryTag l then l.drop summaryTag.length else l

/-- Model of `.replace(/^[A-Za-z]+'s summary: /i, "")`: the regex matches
exactly when a non-empty maximal leading run of ASCII letters is followed
by the case-insensitive tail; the match (letters plus tail) is removed. -/
def stripOwnerSummary (l : List Char) : List Char :=
  let w := l.takeWhile isAsciiAlpha
  if w ≠ [] ∧ matchesCI ownerTail (l.drop w.length) then
    l.drop (w.length + ownerTail.length)
  else l

/-- `getShortDescription` from the source: normalize CR-LF, take the first
line, strip one leading and one trailing underscore, strip the
case-insensitive `Summary: ` tag, then the case-insensitive
`<Word>` + apostrophe + `s summary: ` tag, in this order. -/
def getShortDescription (desc : String) : String :=
  ⟨stripOwnerSummary (stripSummaryTag (stripTrailUnderscore (stripLeadUnderscore
    (firstLine (normNewlines desc.data)))))⟩

/-- String-level wrapper for the CR-LF normalization, as done on
`record["Description"]` inside `renderGroup`. -/
def normalizeCRLF (s : String) : String := ⟨normNewlines s.data⟩

/-- The `PRIORITIES` table; a missing key reads as `undefined`, modelled
as `none`. -/
def PRIORITIES (p : String) : Option Int :=
  if p = "Highest" then some 2
  else if p = "High" then some 1
  else if p = "Medium" then some 0
  else if p = "Low" then some (-1)
  else if p = "Lowest" then some (-2)
  else none

/-- `PRIORITIES[p] || 0`: `undefined` and `0` are both falsy, and every
non-zero table entry is truthy, so this is `getD 0`. -/
def priorityRank (p : String) : Int := (PRIORITIES p).getD 0

/-- The `STATUS_INDICES` table. -/
def STATUS_INDICES (s : String) : Option Int :=
  if s = "Staging Ready" then some 2
  else if s = "Closed" then some 2
  else if s = "Code Review" then some 1
  else if s = "In Progress" then some 1
  else if s = "Rejected" then some 1
  else if s = "Open" then some 0
  else none

/-- `STATUS_INDICES[s] || 0`. -/
def statusRank (s : String) : Int := (STATUS_INDICES s).getD 0

/-- The `STATUS_COLORS` table, keyed by status tier. -/
def STATUS_COLORS (i : Int) : Option String :=
  if i = 0 then some "lightgrey"
  else if i = 1 then some "yellow"
  else if i = 2 then some "brightgreen"
  else none

/-- A row record, with the fields the Flow type `Record` in the source
declares.  `epicLink` is the column whose CSV header is `Custom field`,
an embedded tab, then `(Epic Link)`. -/
structure Record where
  issueKey : String
  summary : String
  description : String
  labels : String
  epicLink : String
  priority : String
  status : String
deriving DecidableEq

/-- JS property read on a parsed row object: the CSV parser (with
`columns: true`) keys each row by the exact header strings, so only those
exact names hit; any other name reads `undefined` (`none`). -/
def Record.getProp (r : Record) (k : String) : Option String :=
  if k = "Issue key" then some r.issueKey
  else if k = "Summary" then some r.summary
  else if k = "Description" then some r.description
  else if k = "Labels" then some r.labels
  else if k = "Custom field\t(Epic Link)" then some r.epicLink
  else if k = "Priority" then some r.priority
  else if k = "Status" then some r.status
  else none

/-- Using a possibly-`undefined` value as a JS object key coerces it to a
string; `undefined` becomes the string `undefined`. -/
def jsObjKey : Option String → String
  | none => "undefined"
  | some s => s

/-- The key function `render` passes to `groupBy`:
`record["Custom field (Epic Link)"]` — note the space in the property
name, where the parsed column name has a tab. -/
def epicKeyOfRecord (r : Record) : String :=
  jsObjKey (r.getProp "Custom field (Epic Link)")

/-- Configuration: `domain` plus the `epics` name table (a string-keyed
object, modelled as an association list; first binding wins). -/
structure Config where
  domain : String
  epics : List (String × String)
deriving DecidableEq

/-- JS object lookup in an association-list model. -/
def lookupStr : List (String × String) → String → Option String
  | [], _ => none
  | p :: ps, k => if p.1 = k then some p.2 else lookupStr ps k

/-- `EPICS[group] || group || "No epic"`: first truthy of the configured
name (falsy when absent or empty), the raw key (falsy when empty), and
the literal `No epic`. -/
def epicDisplayName (epics : List (String × String)) (group : String) : String :=
  match lookupStr epics group with
  | some v => if v ≠ "" then v else if group ≠ "" then group else "No epic"
  | none => if group ≠ "" then group else "No epic"

/-- `recordComparator` from the source. -/
def recordComparator (a b : Record) : Int :=
  let priority := priorityRank b.priority - priorityRank a.priority
  if priority ≠ 0 then priority
  else
    let statusIdx := statusRank b.status - statusRank a.status
    if statusIdx ≠ 0 then statusIdx
    else
      let statusName := localeCompare a.status b.status
      if statusName ≠ 0 then statusName
      else localeCompare a.summary b.summary

/-- The ternary
`PRIORITIES[priority] > 0 ? " :bangbang:" : PRIORITIES[priority] < 0 ? " :arrow_down:" : ""`;
comparing `undefined` with a number is false, so an unrecognized priority
takes the final branch. -/
def prioritySuffix (p : String) : String :=
  match PRIORITIES p with
  | some v => if v > 0 then " :bangbang:" else if v < 0 then " :arrow_down:" else ""
  | none => ""

/-- `toIcon` from the source: tier from `STATUS_INDICES[status] || 0`,
color from `STATUS_COLORS`, label from
`status.toLowerCase().replace(/ /g, "_")`, interpolated into the badge
markup (interpolating `undefined` would print the string `undefined`). -/
def toIcon (status : String) : String :=
  let index := (STATUS_INDICES status).getD 0
  let color := (STATUS_COLORS index).getD "undefined"
  let label : String := ⟨(status.data.map Char.toLower).map (fun c => if c = ' ' then '_' else c)⟩
  "![" ++ status ++ "](" ++ ("https://img.shields.io/badge/-" ++ label ++ "-" ++ color ++ ".svg") ++ ")"

/-- One rendered row, exactly as built inside `renderGroup`. -/
def renderItem (cfg : Config) (r : Record) : String :=
  let key := r.issueKey
  let title := jsTrim r.summary
  let icon := toIcon r.status
  let desc := normalizeCRLF r.description
  let shortdesc := getShortDescription desc
  let url := "https://" ++ cfg.domain ++ "/browse/" ++ key
  let suffix := prioritySuffix r.priority
  jsJoin "\n" ["- [" ++ icon ++ "](" ++ url ++ ") &nbsp; " ++ title ++ suffix, "", "  > " ++ shortdesc]

/-- The comparator-induced weak order used for sorting. -/
def cmpLe (a b : Record) : Prop := recordComparator a b ≤ 0

instance : DecidableRel cmpLe := fun a b => inferInstanceAs (Decidable (_ ≤ _))

/-- The effect of `records.sort(recordComparator)`: a stable sort of the
array by the comparator (JS `sort` places `a` before `b` when the
comparator is negative and keeps ties in order). -/
def sortRecords (rs : List Record) : List Record := rs.insertionSort cmpLe

/-- `renderGroup` from the source.  `Array.prototype.sort` sorts the array
in place and returns that same array, so the subsequent `records.map`
walks the sorted array.  The in-place mutation is made explicit by
returning both the produced string and the post-call contents of the
array. -/
def renderGroupJS (records0 : List Record) (cfg : Config) : String × List Record :=
  let records := sortRecords records0
  let items := records.map (renderItem cfg)
  (jsJoin "\n\n" items, records)

/-- One group block of `render`:
a heading from the resolved display name, then the group body, joined by
a blank line. -/
def renderBlock (cfg : Config) (group : String) (records : List Record) : String :=
  jsJoin "\n\n" ["## " ++ epicDisplayName cfg.epics group, (renderGroupJS records cfg).1]

/-- Modelled from the spec: the `group-by` collaborator (an external
package, not part of this repository) partitions the records into a
string-keyed object, preserving each record's relative input order, each
record going to the group named by the key function's output.  The key
function itself is the one `render` passes (see `epicKeyOfRecord`). -/
def groupOf (rs : List Record) (k : String) : List Record :=
  rs.filter (fun r => epicKeyOfRecord r == k)

/-- First-occurrence key list of the grouping object (JS object key
order: insertion order for string keys). -/
def groupKeys : List Record → List String
  | [] => []
  | r :: rs => epicKeyOfRecord r :: (groupKeys rs).filter (fun k => k != epicKeyOfRecord r)

/-- The grouping object as an association list: keys in first-occurrence
order, each mapped to its order-preserving fiber. -/
def groupsMap (rs : List Record) : List (String × List Record) :=
  (groupKeys rs).map (fun k => (k, groupOf rs k))

/-- Lookup in the grouping object. -/
def lookupGroup : List (String × List Record) → String → Option (List Record)
  | [], _ => none
  | p :: ps, k => if p.1 = k then some p.2 else lookupGroup ps k

/-- Overwrite one key's stored array (the effect, on the grouping object,
of `renderGroup` mutating `groups[group]` in place). -/
def updateKey (m : List (String × List Record)) (k : String) (v : List Record) :
    List (String × List Record) :=
  m.map (fun p => if p.1 = k then (p.1, v) else p)

/-- Ascending default-`sort()` order on the group names. -/
def nameLe (a b : String) : Prop := listLt b.data a.data = false

instance : DecidableRel nameLe := fun a b => inferInstanceAs (Decidable (_ = false))

/-- `Object.keys(groups).sort()`. -/
def sortedNames (m : List (String × List Record)) : List String :=
  (m.map Prod.fst).insertionSort nameLe

/-- The loop body of `render`: visit the (sorted) group names in order,
building each block from the current state of the grouping object and
threading through the in-place mutation `renderGroup` performs on the
visited group's array. -/
def renderFold (cfg : Config) : List String → List (String × List Record) →
    List String × List (String × List Record)
  | [], m => ([], m)
  | n :: ns, m =>
    let recs := (lookupGroup m n).getD []
    let res := renderGroupJS recs cfg
    let block := jsJoin "\n\n" ["## " ++ epicDisplayName cfg.epics n, res.1]
    let rest := renderFold cfg ns (updateKey m n res.2)
    (block :: rest.1, rest.2)

/-- The document body `render` prints (after the timestamp banner, which
is real-time dependent and outside this model), together with the final
state of the grouping object. -/
def render (cfg : Config) (records : List Record) : String × List (String × List Record) :=
  let groups := groupsMap records
  let names := sortedNames groups
  let res := renderFold cfg names groups
  (jsJoin "\n\n" res.1, res.2)

/-! ### Order-theoretic facts about the code-point lexicographic order -/

theorem listLt_irrefl (l : List Char) : listLt l l = false := by
  induction l with
  | nil => rfl
  | cons a as ih => simp [listLt, lt_irrefl, ih]

theorem listLt_asymm {x y : List Char} (h : listLt x y = true) : listLt y x = false := by
  induction x generalizing y with
  | nil =>
    cases y with
    | nil => simpa [listLt] using h
    | cons b bs => rfl
  | cons a as ih =>
    cases y with
    | nil => simp [listLt] at h
    | cons b bs =>
      by_cases hab : a < b
      · simp [listLt, hab, asymm hab]
      · by_cases hba : b < a
        · simp [listLt, hab, hba] at h
        · have : a = b := le_antisymm (not_lt.mp hba) (not_lt.mp hab)
          subst this
          simp only [listLt, if_neg hab, if_neg hba] at h ⊢
          exact ih h

theorem listLt_trans {x y z : List Char} (h1 : listLt x y = true) (h2 : listLt y z = true) :
    listLt x z = true := by
  induction x generalizing y z with
  | nil =>
    cases z with
    | nil =>
      cases y with
      | nil => simp [listLt] at h1
      | cons b bs => simp [listLt] at h2
    | cons c cs => rfl
  | cons a as ih =>
    cases y with
    | nil => simp [listLt] at h1
    | cons b bs =>
      cases z with
      | nil => simp [listLt] at h2
      | cons c cs =>
        by_cases hab : a < b
        · by_cases hbc : b < c
          · simp [listLt, lt_trans hab hbc]
          · by_cases hcb : c < b
            · simp [listLt, hbc, hcb] at h2
            · have : b = c := le_antisymm (not_lt.mp hcb) (not_lt.mp hbc)
              subst this
              simp [listLt, hab]
        · by_cases hba : b < a
          · simp [listLt, hab, hba] at h1
          · have : a = b := le_antisymm (not_lt.mp hba) (not_lt.mp hab)
            subst this
            simp only [listLt, if_neg hab, if_neg hba] at h1
            by_cases hbc : a < c
            · simp [listLt, hbc]
            · by_cases hcb : c < a
              · simp [listLt, hbc, hcb] at h2
              · have : a = c := le_antisymm (not_lt.mp hcb) (not_lt.mp hbc)
                subst this
                simp only [listLt, if_neg hbc, if_neg hcb] at h2 ⊢
                exact ih h1 h2

theorem listLt_eq_of_not {x y : List Char} (h1 : listLt x y = false) (h2 : listLt y x = false) :
    x = y := by
  induction x generalizing y with
  | nil =>
    cases y with
    | nil => rfl
    | cons b bs => simp [listLt] at h1
  | cons a as ih =>
    cases y with
    | nil => simp [listLt] at h2
    | cons b bs =>
      by_cases hab : a < b
      · simp [listLt, hab] at h1
      · by_cases hba : b < a
        · simp [listLt, hba, hab] at h2
        · have hEq : a = b := le_antisymm (not_lt.mp hba) (not_lt.mp hab)
          subst hEq
          simp only [listLt, if_neg hab, if_neg hba] at h1 h2
          rw [ih h1 h2]

theorem localeCompare_lt_iff (a b : String) :
    localeCompare a b < 0 ↔ listLt a.data b.data = true := by
  unfold localeCompare
  split_ifs with h1 h2
  · constructor
    · intro _; exact h1
    · intro _; norm_num
  · constructor
    · intro h; omega
    · intro h; exact absurd h h1
  · constructor
    · intro h; omega
    · intro h; exact absurd h h1

theorem localeCompare_eq_zero_iff (a b : String) : localeCompare a b = 0 ↔ a = b := by
  unfold localeCompare
  split_ifs with h1 h2
  · constructor
    · intro h; norm_num at h
    · intro h; subst h; simp [listLt_irrefl] at h1
  · constructor
    · intro h; norm_num at h
    · intro h; subst h; simp [listLt_irrefl] at h2
  · constructor
    · intro _
      exact String.ext (listLt_eq_of_not (by simpa using h1) (by simpa using h2))
    · intro _; rfl

theorem localeCompare_neg (a b : String) : localeCompare b a = -localeCompare a b := by
  unfold localeCompare
  by_cases h1 : listLt a.data b.data = true
  · have h2 := listLt_asymm h1
    simp [h1, h2]
  · have h1f : listLt a.data b.data = false := by simpa using h1
    by_cases h2 : listLt b.data a.data = true
    · simp [h1f, h2]
    · have h2f : listLt b.data a.data = false := by simpa using h2
      simp [h1f, h2f]

/-! ### The comparator as a lexicographic strict order -/

/-- The strict order the comparator encodes: higher priority rank first;
then higher status tier; then status string ascending; then summary
ascending. -/
def keyLtP (a b : Record) : Prop :=
  priorityRank b.priority < priorityRank a.priority ∨
    (priorityRank a.priority = priorityRank b.priority ∧
      (statusRank b.status < statusRank a.status ∨
        (statusRank a.status = statusRank b.status ∧
          (listLt a.status.data b.status.data = true ∨
            (a.status = b.status ∧ listLt a.summary.data b.summary.data = true)))))

/-- The tie relation of the comparator. -/
def keyEqP (a b : Record) : Prop :=
  priorityRank a.priority = priorityRank b.priority ∧ a.status = b.status ∧ a.summary = b.summary

theorem cmp_lt_iff (a b : Record) : recordComparator a b < 0 ↔ keyLtP a b := by
  simp only [recordComparator]
  split_ifs with h1 h2 h3
  · unfold keyLtP
    constructor
    · intro h; exact Or.inl (by omega)
    · rintro (h | ⟨hEq, _⟩) <;> omega
  · unfold keyLtP
    constructor
    · intro h; exact Or.inr ⟨by omega, Or.inl (by omega)⟩
    · rintro (h | ⟨hEq, h | ⟨hEq2, _⟩⟩) <;> omega
  · unfold keyLtP
    constructor
    · intro h
      exact Or.inr ⟨by omega, Or.inr ⟨by omega, Or.inl ((localeCompare_lt_iff _ _).mp h)⟩⟩
    · rintro (h | ⟨hEq, h | ⟨hEq2, h | ⟨hEq3, _⟩⟩⟩)
      · omega
      · omega
      · exact (localeCompare_lt_iff _ _).mpr h
      · exact absurd ((localeCompare_eq_zero_iff _ _).mpr hEq3) h3
  · have hstat : a.status = b.status := (localeCompare_eq_zero_iff _ _).mp (by omega)
    unfold keyLtP
    constructor
    · intro h
      exact Or.inr ⟨by omega, Or.inr ⟨by omega,
        Or.inr ⟨hstat, (localeCompare_lt_iff _ _).mp h⟩⟩⟩
    · rintro (h | ⟨hEq, h | ⟨hEq2, h | ⟨hEq3, h⟩⟩⟩)
      · omega
      · omega
      · rw [hstat, listLt_irrefl] at h; exact absurd h (by simp)
      · exact (localeCompare_lt_iff _ _).mpr h

theorem cmp_eq_zero_iff (a b : Record) : recordComparator a b = 0 ↔ keyEqP a b := by
  simp only [recordComparator]
  split_ifs with h1 h2 h3
  · unfold keyEqP
    constructor
    · intro h; omega
    · rintro ⟨hp, _, _⟩; omega
  · unfold keyEqP
    constructor
    · intro h; omega
    · rintro ⟨hp, hs, _⟩; rw [hs] at h2; omega
  · unfold keyEqP
    constructor
    · intro h; exact absurd h h3
    · rintro ⟨hp, hs, _⟩
      exact absurd ((localeCompare_eq_zero_iff _ _).mpr hs) h3
  · have hstat : a.status = b.status := (localeCompare_eq_zero_iff _ _).mp (by omega)
    unfold keyEqP
    constructor
    · intro h
      exact ⟨by omega, hstat, (localeCompare_eq_zero_iff _ _).mp h⟩
    · rintro ⟨_, _, hm⟩
      exact (localeCompare_eq_zero_iff _ _).mpr hm

theorem cmp_neg (a b : Record) : recordComparator b a = -recordComparator a b := by
  simp only [recordComparator]
  rw [localeCompare_neg a.status b.status, localeCompare_neg a.summary b.summary]
  split_ifs with g1 g2 g3 g4 g5 g6 g7 <;> omega

theorem keyLt_trans {a b c : Record} (h1 : keyLtP a b) (h2 : keyLtP b c) : keyLtP a c := by
  unfold keyLtP at *
  rcases h1 with h1 | ⟨e1, h1⟩
  · rcases h2 with h2 | ⟨e2, h2⟩
    · exact Or.inl (by omega)
    · exact Or.inl (by omega)
  · rcases h2 with h2 | ⟨e2, h2⟩
    · exact Or.inl (by omega)
    · refine Or.inr ⟨by omega, ?_⟩
      rcases h1 with h1 | ⟨f1, h1⟩
      · rcases h2 with h2 | ⟨f2, h2⟩
        · exact Or.inl (by omega)
        · exact Or.inl (by omega)
      · rcases h2 with h2 | ⟨f2, h2⟩
        · exact Or.inl (by omega)
        · refine Or.inr ⟨by omega, ?_⟩
          rcases h1 with h1 | ⟨s1, h1⟩
          · rcases h2 with h2 | ⟨s2, h2⟩
            · exact Or.inl (listLt_trans h1 h2)
            · exact Or.inl (s2 ▸ h1)
          · rcases h2 with h2 | ⟨s2, h2⟩
            · exact Or.inl (s1 ▸ h2)
            · exact Or.inr ⟨s1.trans s2, listLt_trans h1 h2⟩

theorem keyLt_keyEq_trans {a b c : Record} (h1 : keyLtP a b) (h2 : keyEqP b c) : keyLtP a c := by
  unfold keyLtP at *
  unfold keyEqP at h2
  obtain ⟨e2, s2, m2⟩ := h2
  rcases h1 with h1 | ⟨e1, h1⟩
  · exact Or.inl (by omega)
  · refine Or.inr ⟨by omega, ?_⟩
    rcases h1 with h1 | ⟨f1, h1⟩
    · exact Or.inl (by rw [← s2]; omega)
    · refine Or.inr ⟨by rw [← s2]; omega, ?_⟩
      rcases h1 with h1 | ⟨s1, h1⟩
      · exact Or.inl (s2 ▸ h1)
      · exact Or.inr ⟨s1.trans s2, m2 ▸ h1⟩

theorem keyEq_keyLt_trans {a b c : Record} (h1 : keyEqP a b) (h2 : keyLtP b c) : keyLtP a c := by
  unfold keyLtP at *
  unfold keyEqP at h1
  obtain ⟨e1, s1, m1⟩ := h1
  rcases h2 with h2 | ⟨e2, h2⟩
  · exact Or.inl (by omega)
  · refine Or.inr ⟨by omega, ?_⟩
    rcases h2 with h2 | ⟨f2, h2⟩
    · exact Or.inl (by rw [s1]; omega)
    · refine Or.inr ⟨by rw [s1]; omega, ?_⟩
      rcases h2 with h2 | ⟨s2, h2⟩
      · exact Or.inl (s1 ▸ h2)
      · exact Or.inr ⟨s1.trans s2, m1 ▸ h2⟩

theorem keyEq_trans {a b c : Record} (h1 : keyEqP a b) (h2 : keyEqP b c) : keyEqP a c := by
  unfold keyEqP at *
  obtain ⟨e1, s1, m1⟩ := h1
  obtain ⟨e2, s2, m2⟩ := h2
  exact ⟨e1.trans e2, s1.trans s2, m1.trans m2⟩

theorem key_trichotomy (a b : Record) : keyLtP a b ∨ keyEqP a b ∨ keyLtP b a := by
  unfold keyLtP keyEqP
  rcases lt_trichotomy (priorityRank a.priority) (priorityRank b.priority) with hp | hp | hp
  · exact Or.inr (Or.inr (Or.inl hp))
  · rcases lt_trichotomy (statusRank a.status) (statusRank b.status) with ht | ht | ht
    · exact Or.inr (Or.inr (Or.inr ⟨hp.symm, Or.inl ht⟩))
    · by_cases hsl : listLt a.status.data b.status.data = true
      · exact Or.inl (Or.inr ⟨hp, Or.inr ⟨ht, Or.inl hsl⟩⟩)
      · by_cases hsr : listLt b.status.data a.status.data = true
        · exact Or.inr (Or.inr (Or.inr ⟨hp.symm, Or.inr ⟨ht.symm, Or.inl hsr⟩⟩))
        · have hs : a.status = b.status :=
            String.ext (listLt_eq_of_not (by simpa using hsl) (by simpa using hsr))
          by_cases hml : listLt a.summary.data b.summary.data = true
          · exact Or.inl (Or.inr ⟨hp, Or.inr ⟨ht, Or.inr ⟨hs, hml⟩⟩⟩)
          · by_cases hmr : listLt b.summary.data a.summary.data = true
            · exact Or.inr (Or.inr (Or.inr ⟨hp.symm, Or.inr ⟨ht.symm, Or.inr ⟨hs.symm, hmr⟩⟩⟩))
            · have hm : a.summary = b.summary :=
                String.ext (listLt_eq_of_not (by simpa using hml) (by simpa using hmr))
              exact Or.inr (Or.inl ⟨hp, hs, hm⟩)
    · exact Or.inl (Or.inr ⟨hp, Or.inl ht⟩)
  · exact Or.inl (Or.inl hp)

theorem cmpLe_iff (a b : Record) : cmpLe a b ↔ keyLtP a b ∨ keyEqP a b := by
  unfold cmpLe
  constructor
  · intro h
    rcases lt_or_eq_of_le h with h | h
    · exact Or.inl ((cmp_lt_iff a b).mp h)
    · exact Or.inr ((cmp_eq_zero_iff a b).mp h)
  · rintro (h | h)
    · exact le_of_lt ((cmp_lt_iff a b).mpr h)
    · exact le_of_eq ((cmp_eq_zero_iff a b).mpr h)

instance : IsTrans Record cmpLe where
  trans a b c h1 h2 := by
    rcases (cmpLe_iff a b).mp h1 with h1 | h1 <;> rcases (cmpLe_iff b c).mp h2 with h2 | h2
    · exact (cmpLe_iff a c).mpr (Or.inl (keyLt_trans h1 h2))
    · exact (cmpLe_iff a c).mpr (Or.inl (keyLt_keyEq_trans h1 h2))
    · exact (cmpLe_iff a c).mpr (Or.inl (keyEq_keyLt_trans h1 h2))
    · exact (cmpLe_iff a c).mpr (Or.inr (keyEq_trans h1 h2))

theorem keyEq_symm {a b : Record} (h : keyEqP a b) : keyEqP b a := by
  unfold keyEqP at *
  exact ⟨h.1.symm, h.2.1.symm, h.2.2.symm⟩

instance : IsTotal Record cmpLe where
  total a b := by
    rcases key_trichotomy a b with h | h | h
    · exact Or.inl ((cmpLe_iff a b).mpr (Or.inl h))
    · exact Or.inl ((cmpLe_iff a b).mpr (Or.inr h))
    · exact Or.inr ((cmpLe_iff b a).mpr (Or.inl h))

/-! ### Spec-side formulation of the short-description extraction -/

/-- Spec-side: the text before the first remaining newline. -/
def specFirstLine : List Char → List Char
  | [] => []
  | c :: rest => if c = '\n' then [] else c :: specFirstLine rest

/-- Spec-side: strip one leading underscore if present. -/
def specStripLeadU (l : List Char) : List Char :=
  if l.head? = some '_' then l.tail else l

/-- Spec-side: strip one trailing underscore if present. -/
def specStripTrailU (l : List Char) : List Char :=
  (specStripLeadU l.reverse).reverse

/-- Spec-side: strip a case-insensitive leading literal `Summary: ` if
present. -/
def specStripSummaryTag (l : List Char) : List Char :=
  if (l.map Char.toLower).take 9 = "summary: ".data then l.drop 9 else l

/-- Spec-side: strip a case-insensitive leading tag made of one or more
alphabetic characters followed by apostrophe-`s summary: `, if present. -/
def specStripOwnerSummary (l : List Char) : List Char :=
  let rest := l.dropWhile isAsciiAlpha
  if rest.length < l.length ∧
      (rest.map Char.toLower).take 12 = apos :: 's' :: " summary: ".data then
    rest.drop 12
  else l

/-- The short-description extraction as the spec words it: normalize
CR-LF sequences, take the text before the first remaining newline, strip
a single leading underscore, a single trailing underscore, a
case-insensitive `Summary: ` tag, then a case-insensitive owner-summary
tag — in this fixed order, each at most once. -/
def shortDescriptionSpec (desc : String) : String :=
  ⟨specStripOwnerSummary (specStripSummaryTag (specStripTrailU (specStripLeadU
    (specFirstLine (normNewlines desc.data)))))⟩

theorem specFirstLine_eq (l : List Char) : specFirstLine l = firstLine l := by
  induction l with
  | nil => rfl
  | cons c cs ih =>
    by_cases h : c = '\n'
    · subst h
      rw [specFirstLine, if_pos rfl, firstLine, List.takeWhile_cons, if_neg (by simp)]
    · rw [specFirstLine, if_neg h, firstLine, List.takeWhile_cons, if_pos (by simp [h])]
      rw [firstLine] at ih
      rw [ih]

theorem specStripLeadU_eq (l : List Char) : specStripLeadU l = stripLeadUnderscore l := by
  cases l with
  | nil => rfl
  | cons c cs =>
    by_cases h : c = '_'
    · subst h; rfl
    · rw [specStripLeadU, if_neg (by simp [h])]
      rw [stripLeadUnderscore.eq_def]
      split
      · rename_i heq
        injection heq with e1 e2
        exact absurd e1 h
      · rfl

theorem reverse_tail_reverse (l : List Char) : (l.reverse.tail).reverse = l.dropLast := by
  induction l using List.reverseRecOn with
  | nil => rfl
  | append_singleton xs x ih => simp

theorem specStripTrailU_eq (l : List Char) : specStripTrailU l = stripTrailUnderscore l := by
  rw [specStripTrailU, stripTrailUnderscore, specStripLeadU]
  by_cases h : l.getLast? = some '_'
  · rw [if_pos (by rw [List.head?_reverse]; exact h), if_pos h]
    exact reverse_tail_reverse l
  · rw [if_neg (by rw [List.head?_reverse]; exact h), if_neg h, List.reverse_reverse]

theorem matchesCI_iff (pat l : List Char) :
    matchesCI pat l = true ↔ (l.map Char.toLower).take pat.length = pat.map Char.toLower := by
  induction pat generalizing l with
  | nil => simp [matchesCI]
  | cons p ps ih =>
    cases l with
    | nil => simp [matchesCI]
    | cons c cs =>
      rw [matchesCI]
      simp only [List.map_cons, List.length_cons, List.take_succ_cons, List.cons.injEq,
        Bool.and_eq_true, beq_iff_eq]
      constructor
      · rintro ⟨h1, h2⟩
        exact ⟨h1.symm, (ih cs).mp h2⟩
      · rintro ⟨h1, h2⟩
        exact ⟨h1.symm, (ih cs).mpr h2⟩

theorem summaryTag_lower : summaryTag.map Char.toLower = "summary: ".data := by decide

theorem summaryTag_len : summaryTag.length = 9 := by decide

theorem specStripSummaryTag_eq (l : List Char) :
    specStripSummaryTag l = stripSummaryTag l := by
  have hIff := matchesCI_iff summaryTag l
  rw [summaryTag_len, summaryTag_lower] at hIff
  rw [specStripSummaryTag, stripSummaryTag]
  by_cases h : (l.map Char.toLower).take 9 = "summary: ".data
  · rw [if_pos h, if_pos (hIff.mpr h), summaryTag_len]
  · rw [if_neg h, if_neg (fun hc => h (hIff.mp hc))]

theorem drop_length_takeWhile (p : Char → Bool) (l : List Char) :
    l.drop (l.takeWhile p).length = l.dropWhile p := by
  induction l with
  | nil => rfl
  | cons c cs ih =>
    by_cases h : p c = true
    · rw [List.takeWhile_cons, if_pos h, List.dropWhile_cons, if_pos h,
        List.length_cons, List.drop_succ_cons, ih]
    · rw [List.takeWhile_cons, if_neg h, List.dropWhile_cons, if_neg h,
        List.length_nil, List.drop_zero]

theorem takeWhile_ne_nil_iff (p : Char → Bool) (l : List Char) :
    l.takeWhile p ≠ [] ↔ (l.dropWhile p).length < l.length := by
  have h := congrArg List.length (List.takeWhile_append_dropWhile p l)
  rw [List.length_append] at h
  constructor
  · intro hne
    have := List.length_pos.mpr hne
    omega
  · intro hlt hnil
    rw [hnil] at h
    simp at h
    omega

theorem ownerTail_lower : ownerTail.map Char.toLower = apos :: 's' :: " summary: ".data := by
  decide

theorem ownerTail_len : ownerTail.length = 12 := by decide

theorem specStripOwnerSummary_eq (l : List Char) :
    specStripOwnerSummary l = stripOwnerSummary l := by
  simp only [specStripOwnerSummary, stripOwnerSummary]
  have hd : l.drop (l.takeWhile isAsciiAlpha).length = l.dropWhile isAsciiAlpha :=
    drop_length_takeWhile _ _
  have hIff := matchesCI_iff ownerTail (l.dropWhile isAsciiAlpha)
  rw [ownerTail_len, ownerTail_lower] at hIff
  have hne := takeWhile_ne_nil_iff isAsciiAlpha l
  by_cases h : (l.dropWhile isAsciiAlpha).length < l.length ∧
      ((l.dropWhile isAsciiAlpha).map Char.toLower).take 12 = apos :: 's' :: " summary: ".data
  · rw [if_pos h, if_pos ⟨hne.mpr h.1, by rw [hd]; exact hIff.mpr h.2⟩, ownerTail_len]
    rw [← hd, List.drop_drop]
  · rw [if_neg h, if_neg ?_]
    rintro ⟨hw, hm⟩
    rw [hd] at hm
    exact h ⟨hne.mp hw, hIff.mp hm⟩

/-! ### Clean-input lemmas for the short-description extraction -/

theorem normNewlines_of_no_newline (l : List Char) :
    (∀ c ∈ l, c ≠ '\n') → normNewlines l = l := by
  induction l using normNewlines.induct with
  | case1 => intro _; rfl
  | case2 rest ih =>
    intro h
    exact absurd rfl (h '\n' (by simp))
  | case3 c rest hne ih =>
    intro h
    rw [normNewlines.eq_def]
    split
    · rename_i heq
      simp at heq
    · rename_i rest2 heq
      injection heq with e1 e2
      exact absurd rfl (h '\n' (by rw [e2]; exact List.mem_cons_of_mem _ (by simp)))
    · rename_i c2 rest2 heq
      cases heq
      exact congrArg _ (ih (fun x hx => h x (List.mem_cons_of_mem _ hx)))

theorem firstLine_of_no_newline (l : List Char) :
    (∀ c ∈ l, c ≠ '\n') → firstLine l = l := by
  intro h
  exact List.takeWhile_eq_self_iff.mpr (fun x hx => by simp [h x hx])

theorem stripLeadUnderscore_of (l : List Char) (h : l.head? ≠ some '_') :
    stripLeadUnderscore l = l := by
  rw [← specStripLeadU_eq, specStripLeadU, if_neg h]

theorem stripTrailUnderscore_of (l : List Char) (h : l.getLast? ≠ some '_') :
    stripTrailUnderscore l = l := by
  rw [stripTrailUnderscore, if_neg h]

theorem stripSummaryTag_of (l : List Char) (h : matchesCI summaryTag l = false) :
    stripSummaryTag l = l := by
  rw [stripSummaryTag, if_neg (by simp [h])]

/-- Does the owner-summary regex `/^[A-Za-z]+'s summary: /i` (apostrophe
written out in `ownerTail`) match `l`? -/
def ownerMatch (l : List Char) : Bool :=
  !(l.takeWhile isAsciiAlpha).isEmpty &&
    matchesCI ownerTail (l.drop (l.takeWhile isAsciiAlpha).length)

theorem stripOwnerSummary_of (l : List Char) (h : ownerMatch l = false) :
    stripOwnerSummary l = l := by
  simp only [stripOwnerSummary]
  rw [if_neg]
  rintro ⟨h1, h2⟩
  have hie : (l.takeWhile isAsciiAlpha).isEmpty = false := by
    cases hw : l.takeWhile isAsciiAlpha with
    | nil => exact absurd hw h1
    | cons a as => rfl
  rw [ownerMatch, hie] at h
  simp at h
  exact absurd h2 (by simp [h])

/-! ### Association-list and render-state lemmas -/

theorem lookupStr_filter_ne (l : List (String × String)) (k : String) :
    lookupStr (l.filter (fun p => p.1 != k)) k = none := by
  induction l with
  | nil => rfl
  | cons p ps ih =>
    by_cases h : p.1 = k
    · rw [List.filter_cons, if_neg (by simp [h])]
      exact ih
    · rw [List.filter_cons, if_pos (by simp [h]), lookupStr, if_neg h]
      exact ih

theorem lookupGroup_updateKey_ne (m : List (String × List Record)) (n k : String)
    (v : List Record) (h : k ≠ n) :
    lookupGroup (updateKey m n v) k = lookupGroup m k := by
  induction m with
  | nil => rfl
  | cons p ps ih =>
    simp only [updateKey, List.map_cons] at *
    by_cases hpn : p.1 = n
    · rw [if_pos hpn, lookupGroup, if_neg (by rw [hpn]; exact fun e => h e.symm),
        lookupGroup, if_neg (fun e => h (hpn ▸ e).symm)]
      exact ih
    · rw [if_neg hpn, lookupGroup, lookupGroup]
      by_cases hpk : p.1 = k
      · rw [if_pos hpk, if_pos hpk]
      · rw [if_neg hpk, if_neg hpk]
        exact ih

theorem lookupGroup_updateKey_self (m : List (String × List Record)) (n : String)
    (v : List Record) :
    lookupGroup (updateKey m n v) n = (lookupGroup m n).map (fun _ => v) := by
  induction m with
  | nil => rfl
  | cons p ps ih =>
    simp only [updateKey, List.map_cons] at *
    by_cases hpn : p.1 = n
    · rw [if_pos hpn, lookupGroup, if_pos hpn, lookupGroup, if_pos hpn]
      rfl
    · rw [if_neg hpn, lookupGroup, if_neg hpn, lookupGroup, if_neg hpn]
      exact ih

theorem lookupGroup_eq_none_of_not_mem (m : List (String × List Record)) (k : String)
    (h : k ∉ m.map Prod.fst) : lookupGroup m k = none := by
  induction m with
  | nil => rfl
  | cons p ps ih =>
    rw [lookupGroup, if_neg (fun e => h (by rw [List.map_cons]; exact List.mem_cons.mpr (Or.inl e.symm)))]
    exact ih (fun hm => h (by rw [List.map_cons]; exact List.mem_cons_of_mem _ hm))

theorem renderFold_cons_snd (cfg : Config) (n : String) (ns : List String)
    (m : List (String × List Record)) :
    (renderFold cfg (n :: ns) m).2 =
      (renderFold cfg ns (updateKey m n (sortRecords ((lookupGroup m n).getD [])))).2 := rfl

theorem renderFold_lookup (cfg : Config) (ns : List String)
    (m : List (String × List Record)) (k : String) :
    (k ∉ ns → lookupGroup (renderFold cfg ns m).2 k = lookupGroup m k) ∧
    (k ∈ ns → ns.Nodup →
      lookupGroup (renderFold cfg ns m).2 k = (lookupGroup m k).map sortRecords) := by
  induction ns generalizing m with
  | nil => exact ⟨fun _ => rfl, fun hmem _ => absurd hmem (List.not_mem_nil k)⟩
  | cons n ns ih =>
    constructor
    · intro hnot
      have hkn : k ≠ n := fun e => hnot (by rw [e]; exact List.mem_cons_self _ _)
      have hkns : k ∉ ns := fun hm => hnot (List.mem_cons_of_mem _ hm)
      rw [renderFold_cons_snd, (ih _).1 hkns]
      exact lookupGroup_updateKey_ne m n k _ hkn
    · intro hmem hnd
      obtain ⟨hnin, hnd2⟩ := List.nodup_cons.mp hnd
      rcases List.mem_cons.mp hmem with he | hm
      · subst he
        rw [renderFold_cons_snd, (ih _).1 hnin, lookupGroup_updateKey_self]
        cases hl : lookupGroup m k with
        | none => rfl
        | some l => rfl
      · have hkn : k ≠ n := fun e => hnin (e ▸ hm)
        rw [renderFold_cons_snd, (ih _).2 hm hnd2, lookupGroup_updateKey_ne _ _ _ _ hkn]

theorem groupKeys_nodup (rs : List Record) : (groupKeys rs).Nodup := by
  induction rs with
  | nil => exact List.nodup_nil
  | cons r rs ih =>
    rw [groupKeys]
    refine List.nodup_cons.mpr ⟨?_, ih.filter _⟩
    intro hmem
    have := (List.mem_filter.mp hmem).2
    simp at this

theorem groupsMap_fst (rs : List Record) : (groupsMap rs).map Prod.fst = groupKeys rs := by
  rw [groupsMap, List.map_map]
  exact List.map_id _

theorem sortedNames_perm (m : List (String × List Record)) :
    (sortedNames m).Perm (m.map Prod.fst) :=
  List.perm_insertionSort _ _

theorem render_snd (cfg : Config) (rs : List Record) :
    (render cfg rs).2 = (renderFold cfg (sortedNames (groupsMap rs)) (groupsMap rs)).2 := rfl

/-! ### Helper facts used by claim theorems -/

theorem prioritySuffix_sign (p : String) :
    prioritySuffix p =
      if 0 < priorityRank p then " :bangbang:"
      else if priorityRank p < 0 then " :arrow_down:"
      else "" := by
  rw [prioritySuffix, priorityRank]
  cases h : PRIORITIES p with
  | none => rfl
  | some v => rfl

/-- The badge color as the spec words it: brightgreen for tier-2 statuses,
yellow for tier-1, lightgrey for tier-0 and unrecognized statuses. -/
def badgeColorSpec (s : String) : String :=
  if statusRank s = 2 then "brightgreen"
  else if statusRank s = 1 then "yellow"
  else "lightgrey"

theorem statusColor_eq (s : String) :
    (STATUS_COLORS ((STATUS_INDICES s).getD 0)).getD "undefined" = badgeColorSpec s := by
  rw [badgeColorSpec, statusRank, STATUS_INDICES]
  split_ifs <;> first | rfl | simp_all

/-- The CSV row of the spec scenario family: epic link `PROJECT-110`
under the tab-named epic column. -/
def sampleRecord : Record :=
  { issueKey := "PROJECT-550", summary := "Implement some feature", description := "",
    labels := "", epicLink := "PROJECT-110", priority := "High", status := "Open" }

/-! ### Claim theorems -/

/-- Claim C1: grouping is claimed to partition records by the raw value of
the epic-link column (header `Custom field`, tab, `(Epic Link)`).  The
code instead reads the property `Custom field (Epic Link)` — with a
space — which no parsed record has, so the key function returns the
string `undefined` for every record: a record whose epic link is
`PROJECT-110` does not land in the `PROJECT-110` group at all.  This
evaluation exhibits the failing input. -/
theorem grouping_reads_wrong_epic_property :
    sampleRecord.getProp "Custom field\t(Epic Link)" = some "PROJECT-110" ∧
    sampleRecord.getProp "Custom field (Epic Link)" = none ∧
    epicKeyOfRecord sampleRecord = "undefined" ∧
    groupOf [sampleRecord] "PROJECT-110" = [] ∧
    groupOf [sampleRecord] "undefined" = [sampleRecord] ∧
    groupKeys [sampleRecord] = ["undefined"] := by
  decide

/-- Claim C2: the comparator orders `a` before `b` exactly when `a` has
the greater priority rank (Highest 2, High 1, Medium 0, Low -1,
Lowest -2, unrecognized 0); on equal rank, when `a` has the greater
status tier (2: Staging Ready, Closed; 1: Code Review, In Progress,
Rejected; 0: Open and unrecognized); on equal tier, when `a` has the
lexicographically smaller status; on equal status, when `a` has the
lexicographically smaller summary.  Ties are exactly equal rank, status
and summary, and the comparator is antisymmetric. -/
theorem comparator_three_tier_order (a b : Record) :
    (recordComparator a b < 0 ↔
      (priorityRank b.priority < priorityRank a.priority ∨
        (priorityRank a.priority = priorityRank b.priority ∧
          (statusRank b.status < statusRank a.status ∨
            (statusRank a.status = statusRank b.status ∧
              (listLt a.status.data b.status.data = true ∨
                (a.status = b.status ∧ listLt a.summary.data b.summary.data = true))))))) ∧
    (recordComparator a b = 0 ↔
      (priorityRank a.priority = priorityRank b.priority ∧
        a.status = b.status ∧ a.summary = b.summary)) ∧
    recordComparator b a = -recordComparator a b ∧
    (priorityRank "Highest" = 2 ∧ priorityRank "High" = 1 ∧ priorityRank "Medium" = 0 ∧
      priorityRank "Low" = -1 ∧ priorityRank "Lowest" = -2 ∧
      statusRank "Staging Ready" = 2 ∧ statusRank "Closed" = 2 ∧ statusRank "Code Review" = 1 ∧
      statusRank "In Progress" = 1 ∧ statusRank "Rejected" = 1 ∧ statusRank "Open" = 0) ∧
    (∀ p, PRIORITIES p = none → priorityRank p = 0) ∧
    (∀ s, STATUS_INDICES s = none → statusRank s = 0) := by
  refine ⟨cmp_lt_iff a b, cmp_eq_zero_iff a b, cmp_neg a b, by decide, ?_, ?_⟩
  · intro p h
    rw [priorityRank, h]
    rfl
  · intro s h
    rw [statusRank, h]
    rfl

theorem comparator_three_tier_order_witness :
    PRIORITIES "Urgent" = none ∧ priorityRank "Urgent" = 0 ∧
    STATUS_INDICES "Blocked" = none ∧ statusRank "Blocked" = 0 :=
  ⟨by decide,
   (comparator_three_tier_order ⟨"", "", "", "", "", "", ""⟩
      ⟨"", "", "", "", "", "", ""⟩).2.2.2.2.1 "Urgent" (by decide),
   by decide,
   (comparator_three_tier_order ⟨"", "", "", "", "", "", ""⟩
      ⟨"", "", "", "", "", "", ""⟩).2.2.2.2.2 "Blocked" (by decide)⟩

/-- Claim C3: `renderGroup` emits the row fragments of the sorted list —
`sort` is in place, so the mapped-over array is the sorted one — and
that list is sorted by the comparator and a permutation of the input. -/
theorem renderGroup_renders_sorted (rs : List Record) (cfg : Config) :
    (renderGroupJS rs cfg).1 = jsJoin "\n\n" ((sortRecords rs).map (renderItem cfg)) ∧
    List.Sorted cmpLe (sortRecords rs) ∧
    (sortRecords rs).Perm rs :=
  ⟨rfl, List.sorted_insertionSort cmpLe rs, List.perm_insertionSort cmpLe rs⟩

/-- Claim C4: the short-description extraction equals the spec-side
pipeline: normalize CR-LF, first line, one leading underscore, one
trailing underscore, case-insensitive `Summary: ` tag, case-insensitive
owner-summary tag, in this fixed order, each at most once. -/
theorem shortDescription_matches_spec (d : String) :
    getShortDescription d = shortDescriptionSpec d := by
  rw [getShortDescription, shortDescriptionSpec, specFirstLine_eq, specStripLeadU_eq,
    specStripTrailU_eq, specStripSummaryTag_eq, specStripOwnerSummary_eq]

/-- Claim C5 counterexample: a key that IS present in the epics mapping,
with the empty string as its configured name, does not render with that
configured name — the heading falls back to the raw key. -/
theorem epicName_empty_config_counterexample :
    lookupStr [("K", "")] "K" = some "" ∧
    epicDisplayName [("K", "")] "K" = "K" ∧
    renderBlock { domain := "d", epics := [("K", "")] } "K" [] = "## K" ++ "\n\n" ++ "" := by
  decide

/-- Claim C5 (amended): a key mapped to a non-empty configured name
renders with that name; an absent non-empty key renders as itself; an
absent empty key renders as `No epic`; and the group heading is built
from exactly this resolved name. -/
theorem epicName_resolution (cfg : Config) (k : String) :
    (∀ v, lookupStr cfg.epics k = some v → v ≠ "" → epicDisplayName cfg.epics k = v) ∧
    (lookupStr cfg.epics k = none → k ≠ "" → epicDisplayName cfg.epics k = k) ∧
    (lookupStr cfg.epics k = none → k = "" → epicDisplayName cfg.epics k = "No epic") ∧
    (∀ recs, renderBlock cfg k recs =
      "## " ++ epicDisplayName cfg.epics k ++ "\n\n" ++ (renderGroupJS recs cfg).1) := by
  refine ⟨?_, ?_, ?_, fun recs => rfl⟩
  · intro v hv hne
    simp [epicDisplayName, hv, hne]
  · intro hv hne
    simp [epicDisplayName, hv, hne]
  · intro hv he
    subst he
    simp [epicDisplayName, hv]

theorem epicName_resolution_witness :
    epicDisplayName [("K", "Checkout Flow")] "K" = "Checkout Flow" ∧
    epicDisplayName [] "K" = "K" ∧
    epicDisplayName [] "" = "No epic" :=
  ⟨(epicName_resolution { domain := "d", epics := [("K", "Checkout Flow")] } "K").1
      "Checkout Flow" (by decide) (by decide),
   (epicName_resolution { domain := "d", epics := [] } "K").2.1 rfl (by decide),
   (epicName_resolution { domain := "d", epics := [] } "").2.2.1 rfl rfl⟩

/-- Claim C6: the status badge labels the status lower-cased with spaces
replaced by underscores, and colors it brightgreen for tier-2 statuses,
yellow for tier-1, lightgrey for tier-0 and unrecognized ones; label and
color are embedded in the badge image URL. -/
theorem statusBadge_label_color (s : String) :
    toIcon s =
      "![" ++ s ++ "](" ++ ("https://img.shields.io/badge/-" ++
        (⟨(s.data.map Char.toLower).map (fun c => if c = ' ' then '_' else c)⟩ : String) ++
        "-" ++ badgeColorSpec s ++ ".svg") ++ ")" ∧
    (statusRank s = 2 → badgeColorSpec s = "brightgreen") ∧
    (statusRank s = 1 → badgeColorSpec s = "yellow") ∧
    (statusRank s = 0 → badgeColorSpec s = "lightgrey") ∧
    (STATUS_INDICES s = none → badgeColorSpec s = "lightgrey") := by
  refine ⟨?_, ?_, ?_, ?_, ?_⟩
  · simp only [toIcon, statusColor_eq]
  · intro h
    rw [badgeColorSpec, if_pos h]
  · intro h
    rw [badgeColorSpec, if_neg (by omega), if_pos h]
  · intro h
    rw [badgeColorSpec, if_neg (by omega), if_neg (by omega)]
  · intro h
    rw [badgeColorSpec, statusRank, h]
    rfl

theorem statusBadge_label_color_witness :
    badgeColorSpec "Closed" = "brightgreen" ∧ badgeColorSpec "Rejected" = "yellow" ∧
    badgeColorSpec "Open" = "lightgrey" ∧ badgeColorSpec "Blocked" = "lightgrey" :=
  ⟨(statusBadge_label_color "Closed").2.1 (by decide),
   (statusBadge_label_color "Rejected").2.2.1 (by decide),
   (statusBadge_label_color "Open").2.2.2.1 (by decide),
   (statusBadge_label_color "Blocked").2.2.2.2 (by decide)⟩

/-- Claim C7: each rendered row is the linked badge, the trimmed title,
then a priority annotation that depends only on the sign of the priority
rank: an emphasis suffix for positive rank, a de-emphasis suffix for
negative rank, nothing for rank zero or an unrecognized priority (the
concrete markers being the format choice made by the code). -/
theorem priorityAnnotation_three_way (cfg : Config) (r : Record) :
    renderItem cfg r =
      "- [" ++ toIcon r.status ++ "](" ++
        ("https://" ++ cfg.domain ++ "/browse/" ++ r.issueKey) ++ ") &nbsp; " ++
        jsTrim r.summary ++ prioritySuffix r.priority ++ "\n" ++
        ("\n" ++ ("  > " ++ getShortDescription (normalizeCRLF r.description))) ∧
    (0 < priorityRank r.priority ↔ prioritySuffix r.priority = " :bangbang:") ∧
    (priorityRank r.priority < 0 ↔ prioritySuffix r.priority = " :arrow_down:") ∧
    (priorityRank r.priority = 0 ↔ prioritySuffix r.priority = "") ∧
    (PRIORITIES r.priority = none → prioritySuffix r.priority = "") ∧
    (∀ p q, (0 < priorityRank p ↔ 0 < priorityRank q) →
      (priorityRank p < 0 ↔ priorityRank q < 0) →
      prioritySuffix p = prioritySuffix q) := by
  refine ⟨rfl, ?_, ?_, ?_, ?_, ?_⟩
  · rw [prioritySuffix_sign]
    split_ifs with h1 h2
    · simp [h1]
    · constructor
      · intro h; exact absurd h h1
      · intro h; exact absurd h (by decide)
    · constructor
      · intro h; exact absurd h h1
      · intro h; exact absurd h (by decide)
  · rw [prioritySuffix_sign]
    split_ifs with h1 h2
    · constructor
      · intro h; omega
      · intro h; exact absurd h (by decide)
    · simp [h2]
    · constructor
      · intro h; exact absurd h h2
      · intro h; exact absurd h (by decide)
  · rw [prioritySuffix_sign]
    split_ifs with h1 h2
    · constructor
      · intro h; omega
      · intro h; exact absurd h (by decide)
    · constructor
      · intro h; omega
      · intro h; exact absurd h (by decide)
    · constructor
      · intro _; rfl
      · intro _; omega
  · intro h
    rw [prioritySuffix, h]
  · intro p q h1 h2
    rw [prioritySuffix_sign, prioritySuffix_sign]
    by_cases hp : 0 < priorityRank p
    · rw [if_pos hp, if_pos (h1.mp hp)]
    · rw [if_neg hp, if_neg (fun h => hp (h1.mpr h))]
      by_cases hp2 : priorityRank p < 0
      · rw [if_pos hp2, if_pos (h2.mp hp2)]
      · rw [if_neg hp2, if_neg (fun h => hp2 (h2.mpr h))]

theorem priorityAnnotation_three_way_witness :
    prioritySuffix "Unknown" = "" ∧ prioritySuffix "High" = prioritySuffix "Highest" :=
  ⟨(priorityAnnotation_three_way { domain := "", epics := [] }
      ⟨"", "", "", "", "", "Unknown", ""⟩).2.2.2.2.1 (by decide),
   (priorityAnnotation_three_way { domain := "", epics := [] }
      ⟨"", "", "", "", "", "Unknown", ""⟩).2.2.2.2.2 "High" "Highest" (by decide) (by decide)⟩

/-- Claim C8 counterexample: applying the extraction twice is not the
same as applying it once — each pass strips one more leading underscore
from a description starting with two underscores. -/
theorem shortDescription_second_pass_differs :
    getShortDescription (getShortDescription "__a") ≠ getShortDescription "__a" := by
  decide

/-- Claim C8 (amended): the extraction is the identity on already-clean
input — single-line, no leading or trailing underscore, no
case-insensitive `Summary: ` tag and no owner-summary tag.  (A second
application is not a no-op for every input; see the counterexample.) -/
theorem shortDescription_idempotent_on_clean (d : String)
    (h1 : ∀ c ∈ d.data, c ≠ '\n')
    (h2 : d.data.head? ≠ some '_')
    (h3 : d.data.getLast? ≠ some '_')
    (h4 : matchesCI summaryTag d.data = false)
    (h5 : ownerMatch d.data = false) :
    getShortDescription d = d := by
  rw [getShortDescription, normNewlines_of_no_newline d.data h1,
    firstLine_of_no_newline d.data h1, stripLeadUnderscore_of _ h2,
    stripTrailUnderscore_of _ h3, stripSummaryTag_of _ h4, stripOwnerSummary_of _ h5]

theorem shortDescription_idempotent_on_clean_witness :
    (∀ c ∈ "hello world.".data, c ≠ '\n') ∧
    matchesCI summaryTag "hello world.".data = false ∧
    ownerMatch "hello world.".data = false ∧
    getShortDescription "hello world." = "hello world." :=
  ⟨by decide, by decide, by decide,
   shortDescription_idempotent_on_clean "hello world."
     (by decide) (by decide) (by decide) (by decide) (by decide)⟩

/-- Claim C9: a configured name that is the empty string is falsy, so the
resolution skips it exactly as if the entry were absent: the heading
falls back to the raw key, or to `No epic` when the key is empty too. -/
theorem emptyConfiguredName_ignored (epics : List (String × String)) (k : String)
    (h : lookupStr epics k = some "") :
    epicDisplayName epics k = (if k = "" then "No epic" else k) ∧
    epicDisplayName epics k = epicDisplayName (epics.filter (fun p => p.1 != k)) k := by
  have h1 : epicDisplayName epics k = if k = "" then "No epic" else k := by
    simp only [epicDisplayName, h]
    by_cases hk : k = ""
    · simp [hk]
    · simp [hk]
  refine ⟨h1, ?_⟩
  rw [h1, epicDisplayName, lookupStr_filter_ne]
  by_cases hk : k = "" <;> simp [hk]

theorem emptyConfiguredName_ignored_witness :
    lookupStr [("E", "")] "E" = some "" ∧
    epicDisplayName [("E", "")] "E" = (if "E" = "" then "No epic" else "E") :=
  ⟨by decide, (emptyConfiguredName_ignored [("E", "")] "E" (by decide)).1⟩

/-- Claim C10: rendering sorts each group's stored array in place — after
`render` finishes, every key of the grouping object holds the
comparator-sorted permutation of its original list; updating one key's
array leaves every other key's array untouched; and sorting permutes the
very same records (no field is modified) into comparator order. -/
theorem renderGroup_sorts_stored_list (cfg : Config) (rs : List Record) :
    (∀ k, lookupGroup (render cfg rs).2 k = (lookupGroup (groupsMap rs) k).map sortRecords) ∧
    (∀ (m : List (String × List Record)) (n k : String) (v : List Record),
      k ≠ n → lookupGroup (updateKey m n v) k = lookupGroup m k) ∧
    (∀ l : List Record, (renderGroupJS l cfg).2 = sortRecords l ∧
      (sortRecords l).Perm l ∧ List.Sorted cmpLe (sortRecords l)) := by
  refine ⟨?_, ?_, ?_⟩
  · intro k
    rw [render_snd]
    by_cases hk : k ∈ sortedNames (groupsMap rs)
    · have hnd : (sortedNames (groupsMap rs)).Nodup := by
        refine ((sortedNames_perm (groupsMap rs)).nodup_iff).mpr ?_
        rw [groupsMap_fst]
        exact groupKeys_nodup rs
      exact (renderFold_lookup cfg _ _ k).2 hk hnd
    · rw [(renderFold_lookup cfg _ _ k).1 hk]
      have hnm : k ∉ (groupsMap rs).map Prod.fst := fun hm =>
        hk ((sortedNames_perm (groupsMap rs)).mem_iff.mpr hm)
      rw [lookupGroup_eq_none_of_not_mem _ _ hnm]
      rfl
  · exact fun m n k v h => lookupGroup_updateKey_ne m n k v h
  · exact fun l => ⟨rfl, List.perm_insertionSort cmpLe l, List.sorted_insertionSort cmpLe l⟩

theorem renderGroup_sorts_stored_list_witness :
    lookupGroup (updateKey [("a", []), ("b", [sampleRecord])] "a" []) "b" =
      lookupGroup [("a", []), ("b", [sampleRecord])] "b" :=
  (renderGroup_sorts_stored_list { domain := "", epics := [] } []).2.1
    [("a", []), ("b", [sampleRecord])] "a" "b" [] (by decide)

end JiraSummarizer
